import Mathlib

/-!
Verification of the task-assignment engine of the PM assistant agent
(`src/agent/task_assigner.py`).  The Python source is shallowly embedded:
hours and scores (Python floats holding decimal literals) are modelled as
rationals, the mutable engine object as an explicit `AgentState`, and the
recursive depth-first visit as a fuel-indexed function together with a proof
that the chosen fuel always suffices.
-/

namespace PMAssistant

inductive TaskPriority where
  | low
  | medium
  | high
  | critical
deriving DecidableEq, Repr

inductive TaskComplexity where
  | simple
  | moderate
  | complex
  | expert
deriving DecidableEq, Repr

/-- Employee record (`@dataclass Employee`). -/
structure Employee where
  id : String
  name : String
  skills : List String
  experience_level : String
  availability_hours : ℚ
  current_workload : ℚ := 0
deriving DecidableEq, Repr

/-- Task record (`@dataclass Task`); a Python `dependencies` of `None` is
modelled as the empty list, matching the `task.dependencies or []` readers. -/
structure Task where
  id : String
  title : String
  description : String
  required_skills : List String
  estimated_hours : ℚ
  priority : TaskPriority
  complexity : TaskComplexity
  dependencies : List String := []
deriving DecidableEq, Repr

/-- Assignment record (`@dataclass TaskAssignment`). -/
structure TaskAssignment where
  task_id : String
  employee_id : String
  assigned_hours : ℚ
  start_date : Option String := none
  end_date : Option String := none
deriving DecidableEq, Repr

/-- The mutable fields of `TaskAssignerAgent`. -/
structure AgentState where
  employees : List Employee
  tasks : List Task
  assignments : List TaskAssignment
deriving DecidableEq, Repr

/-- `_calculate_skill_match`: `len(set(required) & set(skills)) / len(required)`,
`1.0` when no skills are required.  The distinct count of the Python set
intersection is the length of the deduplicated required list filtered by
membership in the employee's skills. -/
def calculate_skill_match (t : Task) (e : Employee) : ℚ :=
  if t.required_skills = [] then 1
  else
    ((t.required_skills.dedup.filter (fun s => decide (s ∈ e.skills))).length : ℚ) /
      (t.required_skills.length : ℚ)

/-- The `experience_levels` dict lookup with default `1`. -/
def experience_levels (s : String) : ℤ :=
  if s = "junior" then 1
  else if s = "mid" then 2
  else if s = "senior" then 3
  else if s = "expert" then 4
  else 1

/-- The `complexity_levels` dict lookup (every enum member is a key, so the
default `1` of `dict.get` is unreachable). -/
def complexity_levels : TaskComplexity → ℤ
  | .simple => 1
  | .moderate => 2
  | .complex => 3
  | .expert => 4

/-- `_calculate_experience_match`. -/
def calculate_experience_match (t : Task) (e : Employee) : ℚ :=
  let employee_level := experience_levels e.experience_level
  let task_level := complexity_levels t.complexity
  if employee_level ≥ task_level then
    if employee_level > task_level then 0.8 else 1
  else
    max 0.1 (1 - ((task_level : ℚ) - (employee_level : ℚ)) * 0.3)

/-- `_calculate_availability_score`. -/
def calculate_availability_score (e : Employee) (t : Task) : ℚ :=
  let available_hours := e.availability_hours - e.current_workload
  if available_hours ≤ 0 then 0
  else min 1 (available_hours / t.estimated_hours)

/-- `_calculate_priority_score` (again every enum member is a key). -/
def calculate_priority_score (t : Task) : ℚ :=
  match t.priority with
  | .low => 1
  | .medium => 2
  | .high => 3
  | .critical => 4

/-- The weighted composite score computed inside
`_find_best_employee_for_task`. -/
def composite_score (t : Task) (e : Employee) : ℚ :=
  calculate_skill_match t e * 0.4 +
    calculate_experience_match t e * 0.3 +
    calculate_availability_score e t * 0.3

/-- The scan of `_find_best_employee_for_task`: walk the employee list keeping
the index of the current best-scoring candidate (`best_employee`) and its score
(`best_score`); an employee at or over capacity is skipped, and only a strictly
greater score replaces the incumbent. -/
def find_best_aux (t : Task) : List Employee → ℕ → Option ℕ × ℚ → Option ℕ × ℚ
  | [], _, acc => acc
  | e :: rest, i, (bi, bs) =>
    if e.current_workload ≥ e.availability_hours then
      find_best_aux t rest (i + 1) (bi, bs)
    else
      let c := composite_score t e
      if c > bs then find_best_aux t rest (i + 1) (some i, c)
      else find_best_aux t rest (i + 1) (bi, bs)

/-- `_find_best_employee_for_task`, returning the position of the chosen
employee in the roster (the Python function returns the object itself; the
position identifies it). -/
def find_best_employee_for_task (emps : List Employee) (t : Task) : Option ℕ :=
  (find_best_aux t emps 0 (none, -1)).1

/-- `task_dict = {task.id: task for task in self.tasks}`: later tasks with the
same id overwrite earlier ones, so lookup finds the last matching task. -/
def task_dict (tasks : List Task) (i : String) : Option Task :=
  tasks.reverse.find? (fun t => decide (t.id = i))

/-- The mutable closure state of `_sort_tasks_by_priority_and_dependencies`:
the `temp_visited` set (the current recursion stack), the `visited` set and
the accumulating `sorted_tasks` list. -/
structure VisitState where
  temp_visited : List String
  visited : List String
  sorted_tasks : List Task
deriving DecidableEq, Repr

deriving instance DecidableEq for Except

/-- The two exceptions the ordering phase can raise: the
`ValueError("Circular dependency detected: ...")` of `visit`, and the
`KeyError` of `task_dict[task_id]` when a dependency id has no task. -/
inductive SortError where
  | circular (id : String)
  | keyError (id : String)
deriving DecidableEq, Repr

/-- The `for dep_id in task.dependencies: visit(dep_id)` loop, parametrised by
the one-id visitor: the accumulator carries the state after the dependencies
processed so far, and an exception (`error`) or fuel exhaustion (`none`) stops
any further visiting. -/
def visitDeps (f : String → VisitState → Option (Except SortError VisitState)) :
    List String → Option (Except SortError VisitState) → Option (Except SortError VisitState)
  | [], acc => acc
  | d :: ds, acc =>
    visitDeps f ds
      (match acc with
       | some (.ok s) => f d s
       | r => r)

/-- The recursive `visit(task_id)` closure.  The fuel argument only bounds the
recursion depth; `none` means it ran out (shown below never to happen for the
fuel the engine uses). -/
def visit (tasks : List Task) : ℕ → String → VisitState → Option (Except SortError VisitState)
  | 0, _, _ => none
  | fuel + 1, i, st =>
    if i ∈ st.temp_visited then some (.error (.circular i))
    else if i ∈ st.visited then some (.ok st)
    else
      let st1 : VisitState := { st with temp_visited := i :: st.temp_visited }
      let deps : List String :=
        match task_dict tasks i with
        | some t => t.dependencies
        | none => []
      match visitDeps (visit tasks fuel) deps (some (.ok st1)) with
      | none => none
      | some (.error e) => some (.error e)
      | some (.ok st2) =>
        match task_dict tasks i with
        | none => some (.error (.keyError i))
        | some t =>
          some (.ok ⟨st2.temp_visited.erase i, i :: st2.visited,
            st2.sorted_tasks ++ [t]⟩)

/-- The `for task in self.tasks: if task.id not in visited: visit(task.id)`
driver loop. -/
def visitAll (tasks : List Task) : ℕ → List Task → VisitState → Option (Except SortError VisitState)
  | _, [], st => some (.ok st)
  | fuel, t :: rest, st =>
    if t.id ∈ st.visited then visitAll tasks fuel rest st
    else
      match visit tasks fuel t.id st with
      | none => none
      | some (.error e) => some (.error e)
      | some (.ok st') => visitAll tasks fuel rest st'

/-- Fuel that bounds the recursion depth of `visit`: one more than the number
of distinct ids occurring as a task id or inside a dependency list. -/
def sort_fuel (tasks : List Task) : ℕ :=
  (tasks.map Task.id ++ tasks.flatMap Task.dependencies).dedup.length + 1

/-- The dependency-respecting visitation order built by the depth-first phase
of `_sort_tasks_by_priority_and_dependencies`, before the priority sort. -/
def topo_order (tasks : List Task) : Option (Except SortError (List Task)) :=
  (visitAll tasks (sort_fuel tasks) tasks ⟨[], [], []⟩).map
    (fun r => r.map VisitState.sorted_tasks)

/-- `_sort_tasks_by_priority_and_dependencies`: the depth-first order followed
by `sorted_tasks.sort(key=priority, reverse=True)`, Python's stable sort in
descending priority order. -/
def sort_tasks_by_priority_and_dependencies (tasks : List Task) :
    Option (Except SortError (List Task)) :=
  (topo_order tasks).map
    (fun r => r.map (fun l =>
      l.mergeSort (fun a b => decide (calculate_priority_score b ≤ calculate_priority_score a))))

/-- The assignment loop of `assign_tasks`: for each task in order, pick the
best employee; on success append the assignment and add the task's hours to
that employee's workload. -/
def assign_loop : List Task → List Employee → List TaskAssignment →
    List Employee × List TaskAssignment
  | [], emps, acc => (emps, acc)
  | t :: rest, emps, acc =>
    match find_best_employee_for_task emps t with
    | none => assign_loop rest emps acc
    | some i =>
      match emps[i]? with
      | none => assign_loop rest emps acc
      | some e =>
        assign_loop rest
          (emps.set i { e with current_workload := e.current_workload + t.estimated_hours })
          (acc ++ [⟨t.id, e.id, t.estimated_hours, none, none⟩])

/-- The `employee.current_workload = 0.0` reset applied to every employee at
the start of `assign_tasks`. -/
def reset_workload (e : Employee) : Employee :=
  { e with current_workload := 0 }

/-- `assign_tasks`.  The ordering phase runs first; if it raises, the engine
state is untouched (the Python method mutates nothing before that point).
Otherwise assignments are rebuilt from scratch with every workload reset
to `0`. -/
def assign_tasks (s : AgentState) :
    AgentState × Option (Except SortError (List TaskAssignment)) :=
  match sort_tasks_by_priority_and_dependencies s.tasks with
  | none => (s, none)
  | some (.error e) => (s, some (.error e))
  | some (.ok sorted_tasks) =>
    ({ s with
        employees := (assign_loop sorted_tasks (s.employees.map reset_workload) []).1,
        assignments := (assign_loop sorted_tasks (s.employees.map reset_workload) []).2 },
      some (.ok (assign_loop sorted_tasks (s.employees.map reset_workload) []).2))

/-- One entry of the `employee_workloads` list of the summary. -/
structure EmployeeWorkload where
  employee_id : String
  employee_name : String
  current_workload : ℚ
  availability : ℚ
  utilization_percentage : ℚ
deriving DecidableEq, Repr

/-- The dictionary returned by `get_assignment_summary`. -/
structure AssignmentSummary where
  total_tasks : ℕ
  total_employees : ℕ
  assigned_tasks : ℕ
  unassigned_tasks : ℤ
  assignments : List TaskAssignment
  employee_workloads : List EmployeeWorkload
deriving DecidableEq, Repr

/-- One element of the `employee_workloads` comprehension in
`get_assignment_summary`. -/
def employee_workload_entry (e : Employee) : EmployeeWorkload :=
  { employee_id := e.id,
    employee_name := e.name,
    current_workload := e.current_workload,
    availability := e.availability_hours,
    utilization_percentage :=
      if e.availability_hours > 0 then
        e.current_workload / e.availability_hours * 100
      else 0 }

/-- `get_assignment_summary`. -/
def get_assignment_summary (s : AgentState) : AssignmentSummary :=
  { total_tasks := s.tasks.length,
    total_employees := s.employees.length,
    assigned_tasks := s.assignments.length,
    unassigned_tasks := (s.tasks.length : ℤ) - (s.assignments.length : ℤ),
    assignments := s.assignments,
    employee_workloads := s.employees.map employee_workload_entry }

/-! ### Concrete fixtures used by the witness theorems -/

def wEmp : Employee :=
  { id := "e1", name := "E1", skills := ["python"], experience_level := "senior",
    availability_hours := 20 }

def wEmp2 : Employee :=
  { id := "e2", name := "E2", skills := [], experience_level := "senior",
    availability_hours := 20 }

def wTask : Task :=
  { id := "t1", title := "T", description := "", required_skills := ["python"],
    estimated_hours := 10, priority := .high, complexity := .moderate }

def wState : AgentState :=
  { employees := [wEmp, wEmp2], tasks := [wTask], assignments := [] }

def wAsg : TaskAssignment :=
  { task_id := "t1", employee_id := "e1", assigned_hours := 10 }

def wDone : AgentState :=
  { employees := [{ wEmp with current_workload := 10 }, wEmp2],
    tasks := [wTask],
    assignments := [wAsg] }

def wCycX : Task :=
  { id := "X", title := "", description := "", required_skills := [],
    estimated_hours := 1, priority := .low, complexity := .simple,
    dependencies := ["Y"] }

def wCycY : Task :=
  { id := "Y", title := "", description := "", required_skills := [],
    estimated_hours := 1, priority := .low, complexity := .simple,
    dependencies := ["X"] }

def wCycState : AgentState :=
  { employees := [wEmp], tasks := [wCycX, wCycY], assignments := [] }

/-! ### Properties of the candidate scan -/

theorem find_best_aux_snd_mono (t : Task) :
    ∀ (rest : List Employee) (i : ℕ) (bi : Option ℕ) (bs : ℚ),
      bs ≤ (find_best_aux t rest i (bi, bs)).2 := by
  intro rest
  induction rest with
  | nil => intro i bi bs; simp [find_best_aux]
  | cons e rest ih =>
    intro i bi bs
    simp only [find_best_aux]
    split
    · exact ih _ _ _
    · split
      · exact le_trans (le_of_lt (by assumption)) (ih _ _ _)
      · exact ih _ _ _

theorem find_best_aux_le (t : Task) :
    ∀ (rest : List Employee) (i : ℕ) (bi : Option ℕ) (bs : ℚ) (k : ℕ) (e : Employee),
      rest[k]? = some e → e.current_workload < e.availability_hours →
      composite_score t e ≤ (find_best_aux t rest i (bi, bs)).2 := by
  intro rest
  induction rest with
  | nil => intro i bi bs k e hk; simp at hk
  | cons e0 rest ih =>
    intro i bi bs k e hk hq
    cases k with
    | zero =>
      simp only [List.getElem?_cons_zero, Option.some.injEq] at hk
      subst hk
      simp only [find_best_aux]
      split
      · exact absurd hq (not_lt.mpr (by assumption))
      · split
        · exact find_best_aux_snd_mono t rest (i + 1) (some i) _
        · exact le_trans (not_lt.mp (by assumption)) (find_best_aux_snd_mono t rest (i + 1) bi bs)
    | succ k =>
      simp only [List.getElem?_cons_succ] at hk
      simp only [find_best_aux]
      split
      · exact ih _ _ _ _ _ hk hq
      · split
        · exact ih _ _ _ _ _ hk hq
        · exact ih _ _ _ _ _ hk hq

theorem find_best_aux_none (t : Task) :
    ∀ (rest : List Employee) (i : ℕ) (bi : Option ℕ) (bs : ℚ),
      (∀ (k : ℕ) (e : Employee), rest[k]? = some e →
        e.availability_hours ≤ e.current_workload) →
      find_best_aux t rest i (bi, bs) = (bi, bs) := by
  intro rest
  induction rest with
  | nil => intro i bi bs _; simp [find_best_aux]
  | cons e0 rest ih =>
    intro i bi bs h
    have h0 : e0.availability_hours ≤ e0.current_workload := h 0 e0 (by simp)
    simp only [find_best_aux, if_pos h0]
    exact ih _ _ _ (fun k e hk => h (k + 1) e (by simpa using hk))

theorem find_best_aux_cases (t : Task) :
    ∀ (rest : List Employee) (i : ℕ) (bi : Option ℕ) (bs : ℚ),
      find_best_aux t rest i (bi, bs) = (bi, bs) ∨
      ∃ (k : ℕ) (e : Employee), rest[k]? = some e ∧
        e.current_workload < e.availability_hours ∧
        (find_best_aux t rest i (bi, bs)).1 = some (i + k) ∧
        (find_best_aux t rest i (bi, bs)).2 = composite_score t e ∧
        bs < composite_score t e ∧
        (∀ (j : ℕ) (e' : Employee), j < k → rest[j]? = some e' →
          e'.current_workload < e'.availability_hours →
          composite_score t e' < (find_best_aux t rest i (bi, bs)).2) := by
  intro rest
  induction rest with
  | nil => intro i bi bs; left; simp [find_best_aux]
  | cons e0 rest ih =>
    intro i bi bs
    by_cases hskip : e0.current_workload ≥ e0.availability_hours
    · rcases ih (i + 1) bi bs with h | ⟨k, e, hk, hq, h1, h2, h3, h4⟩
      · left; simpa [find_best_aux, if_pos hskip] using h
      · right
        refine ⟨k + 1, e, by simpa using hk, hq, ?_, ?_, h3, ?_⟩
        · simp only [find_best_aux, if_pos hskip]
          rw [h1]; congr 1; omega
        · simpa [find_best_aux, if_pos hskip] using h2
        · intro j e' hj hje hqe
          cases j with
          | zero =>
            simp only [List.getElem?_cons_zero, Option.some.injEq] at hje
            subst hje
            exact absurd hqe (not_lt.mpr hskip)
          | succ j =>
            simp only [List.getElem?_cons_succ] at hje
            simpa [find_best_aux, if_pos hskip] using h4 j e' (by omega) hje hqe
    · have hq0 : e0.current_workload < e0.availability_hours := lt_of_not_ge hskip
      by_cases himp : composite_score t e0 > bs
      · rcases ih (i + 1) (some i) (composite_score t e0) with h | ⟨k, e, hk, hq, h1, h2, h3, h4⟩
        · right
          refine ⟨0, e0, by simp, hq0, ?_, ?_, himp, ?_⟩
          · simp only [find_best_aux, if_neg hskip, if_pos himp]
            rw [h]; simp
          · simp only [find_best_aux, if_neg hskip, if_pos himp]
            rw [h]
          · intro j e' hj; exact absurd hj (by omega)
        · right
          refine ⟨k + 1, e, by simpa using hk, hq, ?_, ?_, lt_trans himp h3, ?_⟩
          · simp only [find_best_aux, if_neg hskip, if_pos himp]
            rw [h1]; congr 1; omega
          · simpa [find_best_aux, if_neg hskip, if_pos himp] using h2
          · intro j e' hj hje hqe
            have hres : (find_best_aux t (e0 :: rest) i (bi, bs)).2
                = (find_best_aux t rest (i + 1) (some i, composite_score t e0)).2 := by
              simp [find_best_aux, if_neg hskip, if_pos himp]
            cases j with
            | zero =>
              simp only [List.getElem?_cons_zero, Option.some.injEq] at hje
              subst hje
              rw [hres, h2]
              exact h3
            | succ j =>
              simp only [List.getElem?_cons_succ] at hje
              rw [hres]
              exact h4 j e' (by omega) hje hqe
      · have hle : composite_score t e0 ≤ bs := not_lt.mp himp
        rcases ih (i + 1) bi bs with h | ⟨k, e, hk, hq, h1, h2, h3, h4⟩
        · left; simpa [find_best_aux, if_neg hskip, if_neg himp] using h
        · right
          refine ⟨k + 1, e, by simpa using hk, hq, ?_, ?_, h3, ?_⟩
          · simp only [find_best_aux, if_neg hskip, if_neg himp]
            rw [h1]; congr 1; omega
          · simpa [find_best_aux, if_neg hskip, if_neg himp] using h2
          · intro j e' hj hje hqe
            have hres : (find_best_aux t (e0 :: rest) i (bi, bs)).2
                = (find_best_aux t rest (i + 1) (bi, bs)).2 := by
              simp [find_best_aux, if_neg hskip, if_neg himp]
            cases j with
            | zero =>
              simp only [List.getElem?_cons_zero, Option.some.injEq] at hje
              subst hje
              rw [hres]
              exact lt_of_le_of_lt hle (lt_of_lt_of_le h3 (le_of_eq h2.symm))
            | succ j =>
              simp only [List.getElem?_cons_succ] at hje
              rw [hres]
              exact h4 j e' (by omega) hje hqe

/-! ### Claims C3, C4 (candidate selection) -/

/-- Claim C3: during a single `assign_tasks` run, an employee whose workload
has reached or exceeded their availability at the moment a task is considered
is never chosen for it.  Selection happens only through
`_find_best_employee_for_task`, so whenever it returns an employee, that
employee's workload immediately before the assignment is strictly below their
availability. -/
theorem c3_capacity_cap (emps : List Employee) (t : Task) (i : ℕ)
    (h : find_best_employee_for_task emps t = some i) :
    ∃ e, emps[i]? = some e ∧ e.current_workload < e.availability_hours := by
  rcases find_best_aux_cases t emps 0 none (-1) with hc | ⟨k, e, hk, hq, h1, _, _, _⟩
  · unfold find_best_employee_for_task at h
    rw [hc] at h
    simp at h
  · unfold find_best_employee_for_task at h
    rw [h1] at h
    simp only [Option.some.injEq] at h
    refine ⟨e, ?_, hq⟩
    rw [← h]
    simpa using hk


/-- Witness for C3 on a concrete roster: the scan picks employee 0, who is
under capacity. -/
theorem c3_capacity_cap_witness :
    ∃ e, [wEmp, wEmp2][0]? = some e ∧
      e.current_workload < e.availability_hours :=
  c3_capacity_cap [wEmp, wEmp2] wTask 0
    (by
      simp [find_best_employee_for_task, find_best_aux, composite_score,
        calculate_skill_match, calculate_experience_match,
        calculate_availability_score, experience_levels, complexity_levels,
        wEmp, wEmp2, wTask, List.dedup, min_def, max_def]
      norm_num)

/-- Claim C4: the chosen employee attains the maximal composite score
`0.4*skill + 0.3*experience + 0.3*availability` among employees strictly under
capacity, and among exact ties the first in roster order wins (strict `>`
comparison); when no employee qualifies the scan returns nothing and the
assignment loop silently leaves the task out. -/
theorem c4_best_employee (emps : List Employee) (t : Task) :
    (∀ e, composite_score t e =
      0.4 * calculate_skill_match t e + 0.3 * calculate_experience_match t e +
        0.3 * calculate_availability_score e t) ∧
    (∀ i, find_best_employee_for_task emps t = some i →
      ∃ e, emps[i]? = some e ∧ e.current_workload < e.availability_hours ∧
        (∀ (j : ℕ) (e' : Employee), emps[j]? = some e' →
          e'.current_workload < e'.availability_hours →
          composite_score t e' ≤ composite_score t e) ∧
        (∀ (j : ℕ) (e' : Employee), j < i → emps[j]? = some e' →
          e'.current_workload < e'.availability_hours →
          composite_score t e' < composite_score t e)) ∧
    ((∀ (j : ℕ) (e : Employee), emps[j]? = some e →
        e.availability_hours ≤ e.current_workload) →
      find_best_employee_for_task emps t = none) ∧
    (∀ (rest : List Task) (acc : List TaskAssignment),
      find_best_employee_for_task emps t = none →
      assign_loop (t :: rest) emps acc = assign_loop rest emps acc) := by
  refine ⟨fun e => by unfold composite_score; ring, ?_, ?_, ?_⟩
  · intro i h
    rcases find_best_aux_cases t emps 0 none (-1) with hc | ⟨k, e, hk, hq, h1, h2, _, h4⟩
    · unfold find_best_employee_for_task at h
      rw [hc] at h
      simp at h
    · unfold find_best_employee_for_task at h
      rw [h1] at h
      simp only [Option.some.injEq] at h
      have hki : k = i := by omega
      subst hki
      refine ⟨e, hk, hq, ?_, ?_⟩
      · intro j e' hj hqe
        calc composite_score t e' ≤ (find_best_aux t emps 0 (none, -1)).2 :=
              find_best_aux_le t emps 0 none (-1) j e' hj hqe
          _ = composite_score t e := h2
      · intro j e' hjk hj hqe
        rw [← h2]
        exact h4 j e' hjk hj hqe
  · intro hall
    unfold find_best_employee_for_task
    rw [find_best_aux_none t emps 0 none (-1) hall]
  · intro rest acc h
    simp [assign_loop, h]

/-- Witness for C4 on a concrete roster: employee 0 is selected and its
composite score dominates every qualifying employee. -/
theorem c4_best_employee_witness :
    ∃ e, [wEmp, wEmp2][0]? = some e ∧
      e.current_workload < e.availability_hours ∧
      (∀ (j : ℕ) (e' : Employee), [wEmp, wEmp2][j]? = some e' →
        e'.current_workload < e'.availability_hours →
        composite_score wTask e' ≤ composite_score wTask e) ∧
      (∀ (j : ℕ) (e' : Employee), j < 0 → [wEmp, wEmp2][j]? = some e' →
        e'.current_workload < e'.availability_hours →
        composite_score wTask e' < composite_score wTask e) :=
  (c4_best_employee [wEmp, wEmp2] wTask).2.1 0
    (by
      simp [find_best_employee_for_task, find_best_aux, composite_score,
        calculate_skill_match, calculate_experience_match,
        calculate_availability_score, experience_levels, complexity_levels,
        wEmp, wEmp2, wTask, List.dedup, min_def, max_def]
      norm_num)


/-! ### Claims C6, C7, C8, C9 -/

/-- Claim C6: when `assign_tasks` fails with the circular-dependency error, no
partial assignment list is produced: the stored assignment list and every
employee (in particular every workload) are exactly as before the call,
because the ordering phase runs before the assignment reset. -/
theorem c6_no_partial_result_on_cycle (s : AgentState) (c : String)
    (h : (assign_tasks s).2 = some (.error (.circular c))) :
    (assign_tasks s).1.assignments = s.assignments ∧
      (assign_tasks s).1.employees = s.employees := by
  unfold assign_tasks at *
  cases hsort : sort_tasks_by_priority_and_dependencies s.tasks with
  | none => exact ⟨rfl, rfl⟩
  | some r =>
    cases r with
    | error e => exact ⟨rfl, rfl⟩
    | ok l =>
      rw [hsort] at h
      simp at h

/-- Witness for C6: a two-task cycle fails with the circular error and leaves
the cyclic state untouched. -/
theorem c6_no_partial_result_on_cycle_witness :
    (assign_tasks wCycState).1.assignments = wCycState.assignments ∧
      (assign_tasks wCycState).1.employees = wCycState.employees :=
  c6_no_partial_result_on_cycle wCycState "X" (by decide)

/-- Claim C7: the skill sub-score is the number of required skill tags also
possessed by the employee divided by the number of required skill tags, and is
`1.0` when the task requires no skills.  Required skills form a set in the
data model, hence the no-duplicates hypothesis. -/
theorem c7_skill_match (t : Task) (e : Employee)
    (hnd : t.required_skills.Nodup) :
    (t.required_skills = [] → calculate_skill_match t e = 1) ∧
    (t.required_skills ≠ [] →
      calculate_skill_match t e =
        ((t.required_skills.filter (fun s => decide (s ∈ e.skills))).length : ℚ) /
          (t.required_skills.length : ℚ)) := by
  constructor
  · intro h
    simp [calculate_skill_match, h]
  · intro h
    unfold calculate_skill_match
    rw [if_neg h, List.dedup_eq_self.mpr hnd]

/-- Witness for C7 on a concrete task and employee. -/
theorem c7_skill_match_witness :
    calculate_skill_match wTask wEmp =
      ((wTask.required_skills.filter (fun s => decide (s ∈ wEmp.skills))).length : ℚ) /
        (wTask.required_skills.length : ℚ) :=
  (c7_skill_match wTask wEmp (by decide)).2 (by decide)

/-- Claim C8: experience scoring maps junior/mid/senior/expert and
simple/moderate/complex/expert to the ordinals 1–4, scores `1.0` on an exact
level match, `0.8` when the employee level strictly exceeds the task level and
`max 0.1 (1 - 0.3*(task - employee))` below it, and treats an unrecognized
experience string as the lowest ordinal `1`. -/
theorem c8_experience_match (t : Task) (e : Employee) :
    (experience_levels "junior" = 1 ∧ experience_levels "mid" = 2 ∧
      experience_levels "senior" = 3 ∧ experience_levels "expert" = 4 ∧
      complexity_levels .simple = 1 ∧ complexity_levels .moderate = 2 ∧
      complexity_levels .complex = 3 ∧ complexity_levels .expert = 4) ∧
    (calculate_experience_match t e =
      if experience_levels e.experience_level = complexity_levels t.complexity
        then 1
      else if complexity_levels t.complexity < experience_levels e.experience_level
        then 0.8
      else max 0.1 (1 - 0.3 *
        ((complexity_levels t.complexity : ℚ) -
          (experience_levels e.experience_level : ℚ)))) ∧
    (∀ s : String, s ∉ (["junior", "mid", "senior", "expert"] : List String) →
      experience_levels s = 1) := by
  refine ⟨by decide, ?_, ?_⟩
  · unfold calculate_experience_match
    rcases lt_trichotomy (experience_levels e.experience_level)
        (complexity_levels t.complexity) with hlt | heq | hgt
    · rw [if_neg (not_le.mpr hlt), if_neg (by omega), if_neg (by omega)]
      congr 1
      ring
    · rw [if_pos (le_of_eq heq.symm), if_neg (by omega), if_pos heq]
    · rw [if_pos (le_of_lt hgt), if_pos hgt, if_neg (by omega), if_pos hgt]
  · intro s hs
    simp only [List.mem_cons, List.not_mem_nil, or_false, not_or] at hs
    obtain ⟨h1, h2, h3, h4⟩ := hs
    unfold experience_levels
    rw [if_neg h1, if_neg h2, if_neg h3, if_neg h4]

/-- Witness for C8: an unrecognized experience string gets ordinal 1. -/
theorem c8_experience_match_witness : experience_levels "wizard" = 1 :=
  (c8_experience_match wTask wEmp).2.2 "wizard" (by decide)

/-- Claim C9: the summary reports `unassigned_tasks = total - assigned`, and
per-employee utilization `workload / availability * 100`, with `0` when the
availability is `0` (availability is nonnegative in the data model). -/
theorem c9_summary (s : AgentState)
    (hav : ∀ e ∈ s.employees, 0 ≤ e.availability_hours) :
    (get_assignment_summary s).unassigned_tasks =
      ((get_assignment_summary s).total_tasks : ℤ) -
        ((get_assignment_summary s).assigned_tasks : ℤ) ∧
    ∀ w ∈ (get_assignment_summary s).employee_workloads,
      (w.availability = 0 → w.utilization_percentage = 0) ∧
      (w.availability ≠ 0 →
        w.utilization_percentage = w.current_workload / w.availability * 100) := by
  refine ⟨rfl, ?_⟩
  intro w hw
  simp only [get_assignment_summary, List.mem_map] at hw
  obtain ⟨e, he, rfl⟩ := hw
  have hnn := hav e he
  constructor
  · intro h0
    simp only [employee_workload_entry] at h0 ⊢
    rw [if_neg (by rw [h0]; exact lt_irrefl 0)]
  · intro hne
    simp only [employee_workload_entry] at hne ⊢
    rw [if_pos (lt_of_le_of_ne hnn (Ne.symm hne))]

/-- Witness for C9 on a concrete engine state. -/
theorem c9_summary_witness :
    (get_assignment_summary wState).unassigned_tasks =
      ((get_assignment_summary wState).total_tasks : ℤ) -
        ((get_assignment_summary wState).assigned_tasks : ℤ) :=
  (c9_summary wState (by decide)).1

/-! ### Claim C2 (idempotence) -/

theorem set_of_getElem_eq {α : Type} : ∀ (l : List α) (i : ℕ) (a : α),
    l[i]? = some a → l.set i a = l := by
  intro l
  induction l with
  | nil => intro i a h; simp at h
  | cons x xs ih =>
    intro i a h
    cases i with
    | zero => simp only [List.getElem?_cons_zero, Option.some.injEq] at h; rw [h]; rfl
    | succ i =>
      simp only [List.getElem?_cons_succ] at h
      simp [List.set, ih i a h]

theorem assign_loop_map_reset :
    ∀ (ts : List Task) (emps : List Employee) (acc : List TaskAssignment),
      (assign_loop ts emps acc).1.map reset_workload = emps.map reset_workload := by
  intro ts
  induction ts with
  | nil => intro emps acc; rfl
  | cons t ts ih =>
    intro emps acc
    simp only [assign_loop]
    cases hfb : find_best_employee_for_task emps t with
    | none => exact ih emps acc
    | some i =>
      dsimp only
      cases hge : emps[i]? with
      | none => exact ih emps acc
      | some e =>
        dsimp only
        rw [ih]
        rw [List.map_set]
        have : reset_workload { e with current_workload := e.current_workload + t.estimated_hours }
            = reset_workload e := rfl
        rw [this]
        apply set_of_getElem_eq
        rw [List.getElem?_map, hge]
        rfl

/-- Claim C2: `assign_tasks` is idempotent: a second run on the state produced
by a successful run (same roster and backlog; workloads are reset at the start
of each run) returns the identical assignment list and leaves the state,
including every workload, exactly as after the first run. -/
theorem c2_idempotent (s s1 : AgentState) (r1 : List TaskAssignment)
    (h : assign_tasks s = (s1, some (.ok r1))) :
    assign_tasks s1 = (s1, some (.ok r1)) := by
  unfold assign_tasks at h
  cases hsort : sort_tasks_by_priority_and_dependencies s.tasks with
  | none => rw [hsort] at h; simp at h
  | some r =>
    cases r with
    | error e => rw [hsort] at h; simp at h
    | ok L =>
      rw [hsort] at h
      simp only [Prod.mk.injEq, Option.some.injEq, Except.ok.injEq] at h
      obtain ⟨hstate, hr⟩ := h
      have hemps : s1.employees.map reset_workload = s.employees.map reset_workload := by
        rw [← hstate]
        simp only []
        rw [assign_loop_map_reset, List.map_map]
        have : reset_workload ∘ reset_workload = reset_workload := by
          funext e; rfl
        rw [this]
      have htasks : s1.tasks = s.tasks := by rw [← hstate]
      unfold assign_tasks
      rw [htasks, hsort, hemps]
      rw [← hstate, hr]
      dsimp only
      rw [hr]

/-- Witness for C2: the sample run assigns the task to employee `e1`;
re-running on the resulting state reproduces it exactly. -/
theorem c2_idempotent_witness :
    assign_tasks wDone = (wDone, some (.ok [wAsg])) :=
  c2_idempotent wState wDone [wAsg] (by
    simp [assign_tasks, sort_tasks_by_priority_and_dependencies, topo_order, visitAll,
      visit, visitDeps, sort_fuel, task_dict, assign_loop, find_best_employee_for_task,
      find_best_aux, composite_score, calculate_skill_match, calculate_experience_match,
      calculate_availability_score, calculate_priority_score, experience_levels,
      complexity_levels, reset_workload, wState, wDone, wAsg, wEmp, wEmp2, wTask,
      List.dedup, min_def, max_def, List.mergeSort, Except.map]
    norm_num)

/-! ### Claim C10 (workload accounting) -/

theorem visitDeps_none (f : String → VisitState → Option (Except SortError VisitState)) :
    ∀ ds : List String, visitDeps f ds none = none := by
  intro ds
  induction ds with
  | nil => rfl
  | cons d ds ih => exact ih

theorem visitDeps_error (f : String → VisitState → Option (Except SortError VisitState))
    (e : SortError) :
    ∀ ds : List String, visitDeps f ds (some (.error e)) = some (.error e) := by
  intro ds
  induction ds with
  | nil => rfl
  | cons d ds ih => exact ih

/-- Total hours of the assignments charged to employee id `i`. -/
def assigned_sum (acc : List TaskAssignment) (i : String) : ℚ :=
  ((acc.filter (fun a => decide (a.employee_id = i))).map TaskAssignment.assigned_hours).sum

theorem assigned_sum_append_single (acc : List TaskAssignment) (a : TaskAssignment) (i : String) :
    assigned_sum (acc ++ [a]) i =
      assigned_sum acc i + (if a.employee_id = i then a.assigned_hours else 0) := by
  unfold assigned_sum
  rw [List.filter_append]
  by_cases h : a.employee_id = i
  · simp [h]
  · simp [h]

theorem task_dict_mem (tasks : List Task) (i : String) (t : Task)
    (h : task_dict tasks i = some t) : t ∈ tasks ∧ t.id = i := by
  unfold task_dict at h
  refine ⟨List.mem_reverse.mp (List.mem_of_find?_eq_some h), ?_⟩
  have := List.find?_some h
  exact of_decide_eq_true this

theorem visitDeps_sub (tasks : List Task)
    (f : String → VisitState → Option (Except SortError VisitState))
    (hf : ∀ i st st', f i st = some (.ok st') →
      ∀ u ∈ st'.sorted_tasks, u ∈ st.sorted_tasks ∨ u ∈ tasks) :
    ∀ (ds : List String) (st st' : VisitState),
      visitDeps f ds (some (.ok st)) = some (.ok st') →
      ∀ u ∈ st'.sorted_tasks, u ∈ st.sorted_tasks ∨ u ∈ tasks := by
  intro ds
  induction ds with
  | nil =>
    intro st st' h u hu
    simp only [visitDeps, Option.some.injEq, Except.ok.injEq] at h
    rw [h]
    exact Or.inl hu
  | cons d ds ih =>
    intro st st' h u hu
    rw [show visitDeps f (d :: ds) (some (.ok st)) = visitDeps f ds (f d st) from rfl] at h
    cases hfd : f d st with
    | none =>
      rw [hfd] at h
      rw [visitDeps_none] at h
      exact absurd h (by simp)
    | some r =>
      cases r with
      | error e =>
        rw [hfd] at h
        rw [visitDeps_error] at h
        simp at h
      | ok s1 =>
        rw [hfd] at h
        rcases ih s1 st' h u hu with h1 | h1
        · exact hf d st s1 hfd u h1
        · exact Or.inr h1

theorem visit_sub (tasks : List Task) :
    ∀ (fuel : ℕ) (i : String) (st st' : VisitState),
      visit tasks fuel i st = some (.ok st') →
      ∀ u ∈ st'.sorted_tasks, u ∈ st.sorted_tasks ∨ u ∈ tasks := by
  intro fuel
  induction fuel with
  | zero => intro i st st' h; simp [visit] at h
  | succ fuel ih =>
    intro i st st' h u hu
    rw [visit] at h
    split at h
    · simp at h
    · split at h
      · simp only [Option.some.injEq, Except.ok.injEq] at h
        rw [← h] at hu
        exact Or.inl hu
      · split at h
        · -- task_dict found a task: the dependency list is its dependencies
          rename_i x t heqdict
          rw [heqdict] at h
          dsimp only at h
          split at h
          · simp at h
          · simp at h
          · rename_i st2 hdeps
            simp only [Option.some.injEq, Except.ok.injEq] at h
            rw [← h] at hu
            simp only [List.mem_append, List.mem_singleton] at hu
            rcases hu with hu | hu
            · exact visitDeps_sub tasks (visit tasks fuel) ih _ _ st2 hdeps u hu
            · rw [hu]
              exact Or.inr (task_dict_mem tasks i t heqdict).1
        · -- no dictionary entry: the appending step raises KeyError
          rename_i x heqdict
          rw [heqdict] at h
          dsimp only at h
          split at h
          · simp at h
          · simp at h
          · simp at h

theorem visitAll_sub (tasks : List Task) :
    ∀ (ts : List Task) (fuel : ℕ) (st st' : VisitState),
      visitAll tasks fuel ts st = some (.ok st') →
      ∀ u ∈ st'.sorted_tasks, u ∈ st.sorted_tasks ∨ u ∈ tasks := by
  intro ts
  induction ts with
  | nil =>
    intro fuel st st' h u hu
    simp only [visitAll, Option.some.injEq, Except.ok.injEq] at h
    rw [h]
    exact Or.inl hu
  | cons t ts ih =>
    intro fuel st st' h u hu
    rw [visitAll] at h
    split at h
    · exact ih fuel st st' h u hu
    · split at h
      · simp at h
      · simp at h
      · rename_i s1 hv
        rcases ih fuel s1 st' h u hu with h1 | h1
        · exact visit_sub tasks fuel t.id st s1 hv u h1
        · exact Or.inr h1

theorem sort_tasks_sub (tasks L : List Task)
    (h : sort_tasks_by_priority_and_dependencies tasks = some (.ok L)) :
    ∀ u ∈ L, u ∈ tasks := by
  intro u hu
  unfold sort_tasks_by_priority_and_dependencies at h
  cases htopo : topo_order tasks with
  | none => rw [htopo] at h; simp at h
  | some r =>
    cases r with
    | error e => rw [htopo] at h; simp [Except.map] at h
    | ok L0 =>
      rw [htopo] at h
      dsimp only [Option.map, Except.map] at h
      simp only [Option.some.injEq, Except.ok.injEq] at h
      rw [← h] at hu
      rw [List.mem_mergeSort] at hu
      unfold topo_order at htopo
      cases hall : visitAll tasks (sort_fuel tasks) tasks ⟨[], [], []⟩ with
      | none => rw [hall] at htopo; simp at htopo
      | some r2 =>
        cases r2 with
        | error e => rw [hall] at htopo; simp [Except.map] at htopo
        | ok stf =>
          rw [hall] at htopo
          dsimp only [Option.map, Except.map] at htopo
          simp only [Option.some.injEq, Except.ok.injEq] at htopo
          rw [← htopo] at hu
          rcases visitAll_sub tasks tasks (sort_fuel tasks) ⟨[], [], []⟩ stf hall u hu with h1 | h1
          · simp at h1
          · exact h1

theorem assign_loop_map_id :
    ∀ (ts : List Task) (emps : List Employee) (acc : List TaskAssignment),
      (assign_loop ts emps acc).1.map Employee.id = emps.map Employee.id := by
  intro ts emps acc
  have hcomp : ∀ (l : List Employee),
      l.map Employee.id = (l.map reset_workload).map Employee.id := by
    intro l
    rw [List.map_map]
    rfl
  rw [hcomp, assign_loop_map_reset, ← hcomp]

theorem assign_loop_workload_inv :
    ∀ (ts : List Task) (emps : List Employee) (acc : List TaskAssignment),
      (emps.map Employee.id).Nodup →
      (∀ (j : ℕ) (e : Employee), emps[j]? = some e →
        e.current_workload = assigned_sum acc e.id) →
      ∀ (j : ℕ) (e : Employee), (assign_loop ts emps acc).1[j]? = some e →
        e.current_workload = assigned_sum (assign_loop ts emps acc).2 e.id := by
  intro ts
  induction ts with
  | nil => intro emps acc _ hinv j e h; exact hinv j e h
  | cons t ts ih =>
    intro emps acc hnd hinv j e hj
    simp only [assign_loop] at hj ⊢
    obtain hfb | ⟨i, hfb⟩ : find_best_employee_for_task emps t = none ∨
        ∃ i, find_best_employee_for_task emps t = some i := by
      cases find_best_employee_for_task emps t with
      | none => exact Or.inl rfl
      | some i => exact Or.inr ⟨i, rfl⟩
    · rw [hfb] at hj ⊢
      exact ih emps acc hnd hinv j e hj
    · rw [hfb] at hj ⊢
      dsimp only at hj ⊢
      obtain hge | ⟨e0, hge⟩ : emps[i]? = none ∨ ∃ e0, emps[i]? = some e0 := by
        cases emps[i]? with
        | none => exact Or.inl rfl
        | some e0 => exact Or.inr ⟨e0, rfl⟩
      · rw [hge] at hj ⊢
        exact ih emps acc hnd hinv j e hj
      · rw [hge] at hj ⊢
        dsimp only at hj ⊢
        have hilen : i < emps.length := by
          by_contra hcon
          rw [List.getElem?_eq_none (by omega)] at hge
          simp at hge
        have hmapid : (emps.set i
            { e0 with current_workload := e0.current_workload + t.estimated_hours }).map Employee.id
            = emps.map Employee.id := by
          rw [List.map_set]
          apply set_of_getElem_eq
          rw [List.getElem?_map, hge]
          rfl
        refine ih _ _ (by rw [hmapid]; exact hnd) ?_ j e hj
        intro k e1 hk
        by_cases hki : k = i
        · rw [hki] at hk
          rw [List.getElem?_set_self (by simpa using hilen)] at hk
          simp only [Option.some.injEq] at hk
          rw [← hk]
          rw [assigned_sum_append_single]
          rw [if_pos rfl]
          rw [← hinv i e0 hge]
        · rw [List.getElem?_set_ne (fun hcon => hki hcon.symm)] at hk
          rw [assigned_sum_append_single]
          have hne : ¬e0.id = e1.id := by
            intro hcon
            have hik : i = k :=
              List.getElem?_inj (by simpa using hilen) hnd
                (by rw [List.getElem?_map, List.getElem?_map, hge, hk]; simp [hcon])
            exact hki hik.symm
          rw [if_neg hne, add_zero]
          exact hinv k e1 hk

theorem assign_loop_hours :
    ∀ (ts : List Task) (emps : List Employee) (acc : List TaskAssignment),
      ∀ a ∈ (assign_loop ts emps acc).2,
        a ∈ acc ∨ ∃ t ∈ ts, a.task_id = t.id ∧ a.assigned_hours = t.estimated_hours := by
  intro ts
  induction ts with
  | nil => intro emps acc a ha; exact Or.inl ha
  | cons t ts ih =>
    intro emps acc a ha
    simp only [assign_loop] at ha
    obtain hfb | ⟨i, hfb⟩ : find_best_employee_for_task emps t = none ∨
        ∃ i, find_best_employee_for_task emps t = some i := by
      cases find_best_employee_for_task emps t with
      | none => exact Or.inl rfl
      | some i => exact Or.inr ⟨i, rfl⟩
    · rw [hfb] at ha
      rcases ih emps acc a ha with h | ⟨u, hu, h1, h2⟩
      · exact Or.inl h
      · exact Or.inr ⟨u, List.mem_cons_of_mem t hu, h1, h2⟩
    · rw [hfb] at ha
      dsimp only at ha
      obtain hge | ⟨e0, hge⟩ : emps[i]? = none ∨ ∃ e0, emps[i]? = some e0 := by
        cases emps[i]? with
        | none => exact Or.inl rfl
        | some e0 => exact Or.inr ⟨e0, rfl⟩
      · rw [hge] at ha
        rcases ih emps acc a ha with h | ⟨u, hu, h1, h2⟩
        · exact Or.inl h
        · exact Or.inr ⟨u, List.mem_cons_of_mem t hu, h1, h2⟩
      · rw [hge] at ha
        dsimp only at ha
        rcases ih _ _ a ha with h | ⟨u, hu, h1, h2⟩
        · rcases List.mem_append.mp h with h | h
          · exact Or.inl h
          · rw [List.mem_singleton] at h
            rw [h]
            exact Or.inr ⟨t, List.mem_cons_self t ts, rfl, rfl⟩
        · exact Or.inr ⟨u, List.mem_cons_of_mem t hu, h1, h2⟩

/-- Claim C10: after a successful `assign_tasks` run, each employee's workload
is the sum of the assigned hours charged to their id in the returned list, and
each assignment's hours equal the estimated hours of the task it names.
Employee ids are unique in the data model, hence the no-duplicates
hypothesis. -/
theorem c10_workload_accounting (s s1 : AgentState) (r : List TaskAssignment)
    (hnd : (s.employees.map Employee.id).Nodup)
    (h : assign_tasks s = (s1, some (.ok r))) :
    (∀ e ∈ s1.employees, e.current_workload = assigned_sum r e.id) ∧
    (∀ a ∈ r, ∃ t ∈ s.tasks, t.id = a.task_id ∧ a.assigned_hours = t.estimated_hours) := by
  unfold assign_tasks at h
  cases hsort : sort_tasks_by_priority_and_dependencies s.tasks with
  | none => rw [hsort] at h; simp at h
  | some rr =>
    cases rr with
    | error e => rw [hsort] at h; simp at h
    | ok L =>
      rw [hsort] at h
      simp only [Prod.mk.injEq, Option.some.injEq, Except.ok.injEq] at h
      obtain ⟨hstate, hr⟩ := h
      constructor
      · intro e he
        rw [← hstate] at he
        simp only [] at he
        rw [List.mem_iff_getElem?] at he
        obtain ⟨j, hj⟩ := he
        rw [← hr]
        refine assign_loop_workload_inv L (s.employees.map reset_workload) [] ?_ ?_ j e hj
        · rw [List.map_map]
          have hce : Employee.id ∘ reset_workload = Employee.id := rfl
          rw [hce]
          exact hnd
        · intro k e1 hk
          rw [List.getElem?_map] at hk
          cases hke : s.employees[k]? with
          | none => rw [hke] at hk; simp at hk
          | some e2 =>
            rw [hke] at hk
            simp only [Option.map_some', Option.some.injEq] at hk
            rw [← hk]
            rfl
      · intro a ha
        rw [← hr] at ha
        rcases assign_loop_hours L (s.employees.map reset_workload) [] a ha with h1 | ⟨u, hu, h1, h2⟩
        · simp at h1
        · exact ⟨u, sort_tasks_sub s.tasks L hsort u hu, h1.symm, h2⟩

/-- Witness for C10: in the sample run, employee `e1` carries exactly the 10
assigned hours and the assignment's hours match the task's estimate. -/
theorem c10_workload_accounting_witness :
    (∀ e ∈ wDone.employees, e.current_workload = assigned_sum [wAsg] e.id) ∧
    (∀ a ∈ [wAsg], ∃ t ∈ wState.tasks, t.id = a.task_id ∧
      a.assigned_hours = t.estimated_hours) :=
  c10_workload_accounting wState wDone [wAsg] (by decide) (by
    simp [assign_tasks, sort_tasks_by_priority_and_dependencies, topo_order, visitAll,
      visit, visitDeps, sort_fuel, task_dict, assign_loop, find_best_employee_for_task,
      find_best_aux, composite_score, calculate_skill_match, calculate_experience_match,
      calculate_availability_score, calculate_priority_score, experience_levels,
      complexity_levels, reset_workload, wState, wDone, wAsg, wEmp, wEmp2, wTask,
      List.dedup, min_def, max_def, List.mergeSort, Except.map]
    norm_num)

/-! ### The depth-first ordering: invariants, fuel sufficiency, cycle
detection.  These support claims C1 and C5. -/

/-- `L` lists every dependency of each of its entries strictly earlier. -/
def TopoOk (L : List Task) : Prop :=
  ∀ (j : ℕ) (hj : j < L.length), ∀ d ∈ (L.get ⟨j, hj⟩).dependencies,
    ∃ (k : ℕ) (hk : k < L.length), k < j ∧ (L.get ⟨k, hk⟩).id = d

/-- Invariant of the visit state: `visited` mirrors the ids of the emitted
order, ids are emitted at most once, every emitted task is its own dictionary
entry, the emitted order is topologically sorted, and nothing on the recursion
stack has been emitted yet. -/
def InvV (tasks : List Task) (st : VisitState) : Prop :=
  (∀ x, x ∈ st.visited ↔ x ∈ st.sorted_tasks.map Task.id) ∧
  (st.sorted_tasks.map Task.id).Nodup ∧
  (∀ t ∈ st.sorted_tasks, task_dict tasks t.id = some t) ∧
  TopoOk st.sorted_tasks ∧
  (∀ x ∈ st.temp_visited, x ∉ st.visited)

theorem topoOk_nil : TopoOk [] := by
  intro j hj
  simp at hj

theorem topoOk_append (L : List Task) (t : Task) (h : TopoOk L)
    (hd : ∀ d ∈ t.dependencies, d ∈ L.map Task.id) : TopoOk (L ++ [t]) := by
  intro j hj d hdep
  by_cases hjL : j < L.length
  · have hget : (L ++ [t]).get ⟨j, hj⟩ = L.get ⟨j, hjL⟩ := by
      simp [List.get_eq_getElem, List.getElem_append_left hjL]
    rw [hget] at hdep
    obtain ⟨k, hk, hkj, hid⟩ := h j hjL d hdep
    refine ⟨k, by simp; omega, hkj, ?_⟩
    rw [List.get_eq_getElem] at hid ⊢
    rw [List.getElem_append_left hk]
    exact hid
  · have hjlen : j = L.length := by
      simp only [List.length_append, List.length_singleton] at hj
      omega
    have hget : (L ++ [t]).get ⟨j, hj⟩ = t := by
      subst hjlen
      simp [List.get_eq_getElem, List.getElem_concat_length]
    rw [hget] at hdep
    obtain ⟨u, hu, huid⟩ := List.mem_map.mp (hd d hdep)
    obtain ⟨k, hk, hkget⟩ := List.getElem_of_mem hu
    refine ⟨k, by simp; omega, by omega, ?_⟩
    rw [List.get_eq_getElem]
    rw [List.getElem_append_left hk]
    rw [hkget, huid]

theorem visitDeps_ok (tasks : List Task)
    (f : String → VisitState → Option (Except SortError VisitState))
    (hf : ∀ (i : String) (st st' : VisitState), f i st = some (.ok st') →
      st'.temp_visited = st.temp_visited ∧
      (∀ x ∈ st.visited, x ∈ st'.visited) ∧ i ∈ st'.visited ∧
      (∃ ext, st'.sorted_tasks = st.sorted_tasks ++ ext) ∧
      (InvV tasks st → InvV tasks st')) :
    ∀ (ds : List String) (st st' : VisitState),
      visitDeps f ds (some (.ok st)) = some (.ok st') →
      st'.temp_visited = st.temp_visited ∧
      (∀ x ∈ st.visited, x ∈ st'.visited) ∧ (∀ d ∈ ds, d ∈ st'.visited) ∧
      (∃ ext, st'.sorted_tasks = st.sorted_tasks ++ ext) ∧
      (InvV tasks st → InvV tasks st') := by
  intro ds
  induction ds with
  | nil =>
    intro st st' h
    simp only [visitDeps, Option.some.injEq, Except.ok.injEq] at h
    rw [← h]
    exact ⟨rfl, fun x hx => hx, by simp, ⟨[], by simp⟩, fun hi => hi⟩
  | cons d ds ih =>
    intro st st' h
    rw [show visitDeps f (d :: ds) (some (.ok st)) = visitDeps f ds (f d st) from rfl] at h
    cases hfd : f d st with
    | none =>
      rw [hfd, visitDeps_none] at h
      simp at h
    | some r =>
      cases r with
      | error e =>
        rw [hfd, visitDeps_error] at h
        simp at h
      | ok s1 =>
        rw [hfd] at h
        obtain ⟨ht1, hm1, hd1, ⟨e1, he1⟩, hi1⟩ := hf d st s1 hfd
        obtain ⟨ht2, hm2, hd2, ⟨e2, he2⟩, hi2⟩ := ih s1 st' h
        refine ⟨ht2.trans ht1, fun x hx => hm2 x (hm1 x hx), ?_, ⟨e1 ++ e2, by
          rw [he2, he1, List.append_assoc]⟩, fun hi => hi2 (hi1 hi)⟩
        intro d' hd'
        rcases List.mem_cons.mp hd' with hd' | hd'
        · rw [hd']
          exact hm2 d hd1
        · exact hd2 d' hd'

theorem visit_ok (tasks : List Task) :
    ∀ (fuel : ℕ) (i : String) (st st' : VisitState),
      visit tasks fuel i st = some (.ok st') →
      st'.temp_visited = st.temp_visited ∧
      (∀ x ∈ st.visited, x ∈ st'.visited) ∧ i ∈ st'.visited ∧
      (∃ ext, st'.sorted_tasks = st.sorted_tasks ++ ext) ∧
      (InvV tasks st → InvV tasks st') := by
  intro fuel
  induction fuel with
  | zero => intro i st st' h; simp [visit] at h
  | succ fuel ih =>
    intro i st st' h
    rw [visit] at h
    split at h
    · simp at h
    · split at h
      · -- already visited: nothing changes
        rename_i htemp hvis
        simp only [Option.some.injEq, Except.ok.injEq] at h
        rw [← h]
        exact ⟨rfl, fun x hx => hx, hvis, ⟨[], by simp⟩, fun hi => hi⟩
      · rename_i htemp hvis
        split at h
        · -- the dictionary holds a task t whose dependencies are visited
          rename_i x t heqdict
          rw [heqdict] at h
          dsimp only at h
          split at h
          · simp at h
          · simp at h
          · rename_i st2 hdeps
            simp only [Option.some.injEq, Except.ok.injEq] at h
            obtain ⟨ht1, hm1, hd1, ⟨e1, he1⟩, hi1⟩ :=
              visitDeps_ok tasks (visit tasks fuel) ih t.dependencies
                ⟨i :: st.temp_visited, st.visited, st.sorted_tasks⟩ st2 hdeps
            have htid : t.id = i := (task_dict_mem tasks i t heqdict).2
            have htmem : t ∈ tasks := (task_dict_mem tasks i t heqdict).1
            rw [← h]
            dsimp only at ht1 ⊢
            constructor
            · rw [ht1]
              exact List.erase_cons_head i st.temp_visited
            constructor
            · intro x hx
              exact List.mem_cons_of_mem i (hm1 x hx)
            constructor
            · exact List.mem_cons_self i st2.visited
            constructor
            · exact ⟨e1 ++ [t], by rw [he1, List.append_assoc]⟩
            · intro hinv
              obtain ⟨hiff, hnd, hdict, htopo, hdisj⟩ := hinv
              have hinv1 : InvV tasks ⟨i :: st.temp_visited, st.visited, st.sorted_tasks⟩ := by
                refine ⟨hiff, hnd, hdict, htopo, ?_⟩
                intro x hx
                rcases List.mem_cons.mp hx with hx | hx
                · rw [hx]; exact hvis
                · exact hdisj x hx
              obtain ⟨hiff2, hnd2, hdict2, htopo2, hdisj2⟩ := hi1 hinv1
              have hinotvis2 : i ∉ st2.visited := by
                apply hdisj2
                rw [ht1]
                exact List.mem_cons_self i st.temp_visited
              have hinotmap2 : i ∉ st2.sorted_tasks.map Task.id := by
                intro hcon
                exact hinotvis2 ((hiff2 i).mpr hcon)
              refine ⟨?_, ?_, ?_, ?_, ?_⟩
              · intro x
                simp only [List.map_append, List.map_cons, List.map_nil, List.mem_append,
                  List.mem_singleton, List.mem_cons, htid]
                constructor
                · intro hx
                  rcases hx with hx | hx
                  · exact Or.inr (by simp [hx])
                  · exact Or.inl ((hiff2 x).mp hx)
                · intro hx
                  rcases hx with hx | hx
                  · exact Or.inr ((hiff2 x).mpr hx)
                  · simp at hx
                    exact Or.inl hx
              · simp only [List.map_append, List.map_cons, List.map_nil, htid]
                rw [List.nodup_append]
                refine ⟨hnd2, List.nodup_singleton i, ?_⟩
                intro x hx hxi
                simp only [List.mem_singleton] at hxi
                rw [hxi] at hx
                exact hinotmap2 hx
              · intro u hu
                rcases List.mem_append.mp hu with hu | hu
                · exact hdict2 u hu
                · rw [List.mem_singleton] at hu
                  rw [hu, htid]
                  exact heqdict
              · apply topoOk_append _ _ htopo2
                intro d hd
                exact (hiff2 d).mp (hd1 d hd)
              · intro x hx
                dsimp only at hx
                rw [ht1, List.erase_cons_head] at hx
                intro hcon
                rcases List.mem_cons.mp hcon with hcon | hcon
                · rw [hcon] at hx
                  exact htemp hx
                · exact hdisj2 x (by rw [ht1]; exact List.mem_cons_of_mem i hx) hcon
        · -- no dictionary entry: KeyError, not an ok result
          rename_i x heqdict
          rw [heqdict] at h
          dsimp only at h
          split at h
          · simp at h
          · simp at h
          · simp at h

theorem visitAll_ok (tasks : List Task) :
    ∀ (ts : List Task) (fuel : ℕ) (st st' : VisitState),
      visitAll tasks fuel ts st = some (.ok st') →
      st'.temp_visited = st.temp_visited ∧
      (∀ x ∈ st.visited, x ∈ st'.visited) ∧
      (∀ t ∈ ts, t.id ∈ st'.visited) ∧
      (InvV tasks st → InvV tasks st') := by
  intro ts
  induction ts with
  | nil =>
    intro fuel st st' h
    simp only [visitAll, Option.some.injEq, Except.ok.injEq] at h
    rw [← h]
    exact ⟨rfl, fun x hx => hx, by simp, fun hi => hi⟩
  | cons t ts ih =>
    intro fuel st st' h
    rw [visitAll] at h
    split at h
    · rename_i hvis
      obtain ⟨h1, h2, h3, h4⟩ := ih fuel st st' h
      refine ⟨h1, h2, ?_, h4⟩
      intro u hu
      rcases List.mem_cons.mp hu with hu | hu
      · rw [hu]
        exact h2 t.id hvis
      · exact h3 u hu
    · rename_i hvis
      split at h
      · simp at h
      · simp at h
      · rename_i s1 hv
        obtain ⟨hv1, hv2, hv3, hv4, hv5⟩ := visit_ok tasks fuel t.id st s1 hv
        obtain ⟨h1, h2, h3, h4⟩ := ih fuel s1 st' h
        refine ⟨h1.trans hv1, fun x hx => h2 x (hv2 x hx), ?_, fun hi => h4 (hv5 hi)⟩
        intro u hu
        rcases List.mem_cons.mp hu with hu | hu
        · rw [hu]
          exact h2 t.id hv3
        · exact h3 u hu

/-- All ids that can ever be visited: task ids and dependency ids. -/
def idUniverse (tasks : List Task) : Finset String :=
  (tasks.map Task.id ++ tasks.flatMap Task.dependencies).toFinset

theorem id_mem_universe (tasks : List Task) (t : Task) (h : t ∈ tasks) :
    t.id ∈ idUniverse tasks := by
  simp only [idUniverse, List.mem_toFinset, List.mem_append, List.mem_map]
  exact Or.inl ⟨t, h, rfl⟩

theorem dep_mem_universe (tasks : List Task) (t : Task) (d : String)
    (ht : t ∈ tasks) (hd : d ∈ t.dependencies) : d ∈ idUniverse tasks := by
  simp only [idUniverse, List.mem_toFinset, List.mem_append, List.mem_flatMap]
  exact Or.inr ⟨t, ht, hd⟩

theorem visitDeps_ne_none (f : String → VisitState → Option (Except SortError VisitState))
    (U : Finset String) (n : ℕ)
    (hf : ∀ (d : String) (st : VisitState), d ∈ U →
      (∀ x ∈ st.temp_visited, x ∈ U) →
      (U \ st.temp_visited.toFinset).card < n → f d st ≠ none)
    (hok : ∀ (i : String) (st st' : VisitState), f i st = some (.ok st') →
      st'.temp_visited = st.temp_visited) :
    ∀ (ds : List String) (st : VisitState), (∀ d ∈ ds, d ∈ U) →
      (∀ x ∈ st.temp_visited, x ∈ U) →
      (U \ st.temp_visited.toFinset).card < n →
      visitDeps f ds (some (.ok st)) ≠ none := by
  intro ds
  induction ds with
  | nil => intro st _ _ _; simp [visitDeps]
  | cons d ds ih =>
    intro st hds htemp hcard
    rw [show visitDeps f (d :: ds) (some (.ok st)) = visitDeps f ds (f d st) from rfl]
    cases hfd : f d st with
    | none => exact absurd hfd (hf d st (hds d (List.mem_cons_self d ds)) htemp hcard)
    | some r =>
      cases r with
      | error e => rw [visitDeps_error]; simp
      | ok s1 =>
        have ht1 := hok d st s1 hfd
        exact ih s1 (fun d' hd' => hds d' (List.mem_cons_of_mem d hd'))
          (by rw [ht1]; exact htemp) (by rw [ht1]; exact hcard)

theorem visit_ne_none (tasks : List Task) :
    ∀ (fuel : ℕ) (i : String) (st : VisitState),
      i ∈ idUniverse tasks → (∀ x ∈ st.temp_visited, x ∈ idUniverse tasks) →
      ((idUniverse tasks) \ st.temp_visited.toFinset).card < fuel →
      visit tasks fuel i st ≠ none := by
  intro fuel
  induction fuel with
  | zero => intro i st _ _ hcard; omega
  | succ fuel ih =>
    intro i st hiU htemp hcard h
    rw [visit] at h
    split at h
    · simp at h
    · split at h
      · simp at h
      · rename_i hitemp hivis
        have hiT : i ∉ st.temp_visited.toFinset := by
          rw [List.mem_toFinset]
          exact hitemp
        have hmem : i ∈ idUniverse tasks \ st.temp_visited.toFinset :=
          Finset.mem_sdiff.mpr ⟨hiU, hiT⟩
        have hcard1 : (idUniverse tasks \ (i :: st.temp_visited).toFinset).card < fuel := by
          rw [List.toFinset_cons, Finset.sdiff_insert]
          rw [Finset.card_erase_of_mem hmem]
          have hpos : 0 < (idUniverse tasks \ st.temp_visited.toFinset).card :=
            Finset.card_pos.mpr ⟨i, hmem⟩
          omega
        have htemp1 : ∀ x ∈ i :: st.temp_visited, x ∈ idUniverse tasks := by
          intro x hx
          rcases List.mem_cons.mp hx with hx | hx
          · rw [hx]; exact hiU
          · exact htemp x hx
        split at h
        · rename_i x t heqdict
          have hdepsU : ∀ d ∈ t.dependencies, d ∈ idUniverse tasks := by
            intro d hd
            exact dep_mem_universe tasks t d (task_dict_mem tasks i t heqdict).1 hd
          rw [heqdict] at h
          dsimp only at h
          split at h
          · rename_i hnone
            exact visitDeps_ne_none (visit tasks fuel) (idUniverse tasks) fuel
              ih (fun i' st1 st2 hok => (visit_ok tasks fuel i' st1 st2 hok).1)
              t.dependencies ⟨i :: st.temp_visited, st.visited, st.sorted_tasks⟩
              hdepsU htemp1 hcard1 hnone
          · simp at h
          · simp at h
        · rename_i x heqdict
          simp only [visitDeps] at h
          rw [heqdict] at h
          simp at h

theorem visitAll_ne_none (tasks : List Task) :
    ∀ (ts : List Task) (fuel : ℕ) (st : VisitState),
      (∀ t ∈ ts, t ∈ tasks) →
      (∀ x ∈ st.temp_visited, x ∈ idUniverse tasks) →
      ((idUniverse tasks) \ st.temp_visited.toFinset).card < fuel →
      visitAll tasks fuel ts st ≠ none := by
  intro ts
  induction ts with
  | nil => intro fuel st _ _ _; simp [visitAll]
  | cons t ts ih =>
    intro fuel st hts htemp hcard h
    rw [visitAll] at h
    split at h
    · exact ih fuel st (fun u hu => hts u (List.mem_cons_of_mem t hu)) htemp hcard h
    · split at h
      · rename_i hnone
        exact visit_ne_none tasks fuel t.id st
          (id_mem_universe tasks t (hts t (List.mem_cons_self t ts)))
          htemp hcard hnone
      · simp at h
      · rename_i s1 hv
        have ht1 := (visit_ok tasks fuel t.id st s1 hv).1
        exact ih fuel s1 (fun u hu => hts u (List.mem_cons_of_mem t hu))
          (by rw [ht1]; exact htemp) (by rw [ht1]; exact hcard) h

/-- The data-model contract that every dependency id names a task of the same
backlog. -/
def closed_world (tasks : List Task) : Prop :=
  ∀ t ∈ tasks, ∀ d ∈ t.dependencies, ∃ u ∈ tasks, u.id = d

instance closed_world_decidable (tasks : List Task) : Decidable (closed_world tasks) := by
  unfold closed_world
  infer_instance

theorem task_dict_isSome_of (tasks : List Task) (d : String)
    (h : ∃ u ∈ tasks, u.id = d) : ∃ t, task_dict tasks d = some t := by
  obtain ⟨u, hu, hud⟩ := h
  unfold task_dict
  have hmem : u ∈ tasks.reverse := List.mem_reverse.mpr hu
  have hsome : (tasks.reverse.find? (fun t => decide (t.id = d))).isSome := by
    rw [List.find?_isSome]
    exact ⟨u, hmem, by simp [hud]⟩
  obtain ⟨t, ht⟩ := Option.isSome_iff_exists.mp hsome
  exact ⟨t, ht⟩

theorem visitDeps_no_key (tasks : List Task)
    (f : String → VisitState → Option (Except SortError VisitState))
    (hf : ∀ (d : String) (st : VisitState), (∃ u, task_dict tasks d = some u) →
      ∀ x, f d st ≠ some (.error (.keyError x))) :
    ∀ (ds : List String) (st : VisitState),
      (∀ d ∈ ds, ∃ u, task_dict tasks d = some u) →
      ∀ x, visitDeps f ds (some (.ok st)) ≠ some (.error (.keyError x)) := by
  intro ds
  induction ds with
  | nil => intro st _ x; simp [visitDeps]
  | cons d ds ih =>
    intro st hds x h
    rw [show visitDeps f (d :: ds) (some (.ok st)) = visitDeps f ds (f d st) from rfl] at h
    cases hfd : f d st with
    | none => rw [hfd, visitDeps_none] at h; simp at h
    | some r =>
      cases r with
      | error e =>
        rw [hfd, visitDeps_error] at h
        simp only [Option.some.injEq, Except.error.injEq] at h
        rw [h] at hfd
        exact hf d st (hds d (List.mem_cons_self d ds)) x hfd
      | ok s1 =>
        rw [hfd] at h
        exact ih s1 (fun d' hd' => hds d' (List.mem_cons_of_mem d hd')) x h

theorem visit_no_key (tasks : List Task) (hcw : closed_world tasks) :
    ∀ (fuel : ℕ) (i : String) (st : VisitState),
      (∃ u, task_dict tasks i = some u) →
      ∀ x, visit tasks fuel i st ≠ some (.error (.keyError x)) := by
  intro fuel
  induction fuel with
  | zero => intro i st _ x; simp [visit]
  | succ fuel ih =>
    intro i st hdict x h
    rw [visit] at h
    split at h
    · simp at h
    · split at h
      · simp at h
      · split at h
        · rename_i y t heqdict
          rw [heqdict] at h
          dsimp only at h
          have hdepsU : ∀ d ∈ t.dependencies, ∃ u, task_dict tasks d = some u := by
            intro d hd
            exact task_dict_isSome_of tasks d
              (hcw t (task_dict_mem tasks i t heqdict).1 d hd)
          split at h
          · simp at h
          · rename_i e herr
            simp only [Option.some.injEq, Except.error.injEq] at h
            rw [h] at herr
            exact visitDeps_no_key tasks (visit tasks fuel) ih t.dependencies
              ⟨i :: st.temp_visited, st.visited, st.sorted_tasks⟩ hdepsU x herr
          · simp at h
        · rename_i y heqdict
          obtain ⟨u, hu⟩ := hdict
          rw [hu] at heqdict
          simp at heqdict

theorem visitAll_no_key (tasks : List Task) (hcw : closed_world tasks) :
    ∀ (ts : List Task) (fuel : ℕ) (st : VisitState),
      (∀ t ∈ ts, t ∈ tasks) →
      ∀ x, visitAll tasks fuel ts st ≠ some (.error (.keyError x)) := by
  intro ts
  induction ts with
  | nil => intro fuel st _ x; simp [visitAll]
  | cons t ts ih =>
    intro fuel st hts x h
    rw [visitAll] at h
    split at h
    · exact ih fuel st (fun u hu => hts u (List.mem_cons_of_mem t hu)) x h
    · split at h
      · simp at h
      · rename_i e herr
        simp only [Option.some.injEq, Except.error.injEq] at h
        rw [h] at herr
        exact visit_no_key tasks hcw fuel t.id st
          (task_dict_isSome_of tasks t.id ⟨t, hts t (List.mem_cons_self t ts), rfl⟩)
          x herr
      · rename_i s1 hv
        exact ih fuel s1 (fun u hu => hts u (List.mem_cons_of_mem t hu)) x h

/-- The dependency relation induced by the task dictionary: `a` depends
directly on `b`. -/
def depEdge (tasks : List Task) (a b : String) : Prop :=
  ∃ t, task_dict tasks a = some t ∧ b ∈ t.dependencies

theorem chain_reach (tasks : List Task) :
    ∀ (rest : List String) (h : String),
      List.Chain' (fun x y => depEdge tasks y x) (h :: rest) →
      ∀ x ∈ h :: rest, Relation.ReflTransGen (depEdge tasks) x h := by
  intro rest
  induction rest with
  | nil =>
    intro h _ x hx
    rw [List.mem_singleton] at hx
    rw [hx]
  | cons h2 rest ih =>
    intro h hchain x hx
    rcases List.mem_cons.mp hx with hx | hx
    · rw [hx]
    · have hedge : depEdge tasks h2 h := (List.chain'_cons.mp hchain).1
      have hch2 := (List.chain'_cons.mp hchain).2
      exact (ih h2 hch2 x hx).tail hedge

theorem visitDeps_circular (tasks : List Task)
    (f : String → VisitState → Option (Except SortError VisitState))
    (hok : ∀ (i : String) (st st' : VisitState), f i st = some (.ok st') →
      st'.temp_visited = st.temp_visited)
    (hcirc : ∀ (d : String) (st : VisitState) (c : String),
      List.Chain' (fun x y => depEdge tasks y x) st.temp_visited →
      (st.temp_visited = [] ∨
        ∃ h rest, st.temp_visited = h :: rest ∧ depEdge tasks h d) →
      f d st = some (.error (.circular c)) →
      Relation.TransGen (depEdge tasks) c c) :
    ∀ (ds : List String) (st : VisitState) (c : String),
      List.Chain' (fun x y => depEdge tasks y x) st.temp_visited →
      (∀ d ∈ ds, st.temp_visited = [] ∨
        ∃ h rest, st.temp_visited = h :: rest ∧ depEdge tasks h d) →
      visitDeps f ds (some (.ok st)) = some (.error (.circular c)) →
      Relation.TransGen (depEdge tasks) c c := by
  intro ds
  induction ds with
  | nil => intro st c _ _ h; simp [visitDeps] at h
  | cons d ds ih =>
    intro st c hchain hds h
    rw [show visitDeps f (d :: ds) (some (.ok st)) = visitDeps f ds (f d st) from rfl] at h
    cases hfd : f d st with
    | none => rw [hfd, visitDeps_none] at h; simp at h
    | some r =>
      cases r with
      | error e =>
        rw [hfd, visitDeps_error] at h
        simp only [Option.some.injEq, Except.error.injEq] at h
        rw [h] at hfd
        exact hcirc d st c hchain (hds d (List.mem_cons_self d ds)) hfd
      | ok s1 =>
        rw [hfd] at h
        have ht1 := hok d st s1 hfd
        exact ih s1 c (by rw [ht1]; exact hchain)
          (fun d' hd' => by rw [ht1]; exact hds d' (List.mem_cons_of_mem d hd')) h

theorem visit_circular (tasks : List Task) :
    ∀ (fuel : ℕ) (i : String) (st : VisitState) (c : String),
      List.Chain' (fun x y => depEdge tasks y x) st.temp_visited →
      (st.temp_visited = [] ∨
        ∃ h rest, st.temp_visited = h :: rest ∧ depEdge tasks h i) →
      visit tasks fuel i st = some (.error (.circular c)) →
      Relation.TransGen (depEdge tasks) c c := by
  intro fuel
  induction fuel with
  | zero => intro i st c _ _ h; simp [visit] at h
  | succ fuel ih =>
    intro i st c hchain hctx h
    rw [visit] at h
    split at h
    · -- the id is on the recursion stack: the circular error itself
      rename_i hitemp
      simp only [Option.some.injEq, Except.error.injEq, SortError.circular.injEq] at h
      rw [← h]
      rcases hctx with hctx | ⟨h0, rest, heq, hedge⟩
      · rw [hctx] at hitemp
        simp at hitemp
      · rw [heq] at hitemp hchain
        have hreach : Relation.ReflTransGen (depEdge tasks) i h0 :=
          chain_reach tasks rest h0 hchain i hitemp
        exact Relation.TransGen.tail' hreach hedge
    · split at h
      · simp at h
      · rename_i hitemp hivis
        have hchain1 : List.Chain' (fun x y => depEdge tasks y x) (i :: st.temp_visited) := by
          rw [List.chain'_cons']
          refine ⟨?_, hchain⟩
          intro b hb
          rcases hctx with hctx | ⟨h0, rest, heq, hedge⟩
          · rw [hctx] at hb
            simp at hb
          · rw [heq] at hb
            simp only [List.head?_cons, Option.mem_def, Option.some.injEq] at hb
            rw [hb] at hedge
            exact hedge
        split at h
        · rename_i y t heqdict
          rw [heqdict] at h
          dsimp only at h
          have hctx1 : ∀ d ∈ t.dependencies,
              (i :: st.temp_visited = [] ∨
                ∃ h0 rest, i :: st.temp_visited = h0 :: rest ∧ depEdge tasks h0 d) := by
            intro d hd
            exact Or.inr ⟨i, st.temp_visited, rfl, ⟨t, heqdict, hd⟩⟩
          split at h
          · simp at h
          · rename_i e herr
            simp only [Option.some.injEq, Except.error.injEq] at h
            rw [h] at herr
            exact visitDeps_circular tasks (visit tasks fuel)
              (fun i' st1 st2 hok => (visit_ok tasks fuel i' st1 st2 hok).1)
              ih t.dependencies
              ⟨i :: st.temp_visited, st.visited, st.sorted_tasks⟩ c hchain1 hctx1 herr
          · simp at h
        · rename_i y heqdict
          simp only [visitDeps] at h
          rw [heqdict] at h
          simp at h

theorem visitAll_circular (tasks : List Task) :
    ∀ (ts : List Task) (fuel : ℕ) (st : VisitState) (c : String),
      st.temp_visited = [] →
      visitAll tasks fuel ts st = some (.error (.circular c)) →
      Relation.TransGen (depEdge tasks) c c := by
  intro ts
  induction ts with
  | nil => intro fuel st c _ h; simp [visitAll] at h
  | cons t ts ih =>
    intro fuel st c htemp h
    rw [visitAll] at h
    split at h
    · exact ih fuel st c htemp h
    · split at h
      · simp at h
      · rename_i e herr
        simp only [Option.some.injEq, Except.error.injEq] at h
        rw [h] at herr
        exact visit_circular tasks fuel t.id st c
          (by rw [htemp]; exact List.chain'_nil) (Or.inl htemp) herr
      · rename_i s1 hv
        have ht1 := (visit_ok tasks fuel t.id st s1 hv).1
        exact ih fuel s1 c (by rw [ht1]; exact htemp) h

theorem edge_step (tasks L : List Task)
    (hdict : ∀ t ∈ L, task_dict tasks t.id = some t)
    (htopo : TopoOk L) :
    ∀ (a b : String), depEdge tasks a b →
      ∀ (j : ℕ) (hj : j < L.length), (L.get ⟨j, hj⟩).id = a →
        ∃ (k : ℕ) (hk : k < L.length), k < j ∧ (L.get ⟨k, hk⟩).id = b := by
  intro a b he j hj hja
  obtain ⟨t, hdt, hbt⟩ := he
  have hmem : L.get ⟨j, hj⟩ ∈ L := List.get_mem L j hj
  have hdj := hdict (L.get ⟨j, hj⟩) hmem
  rw [hja, hdt] at hdj
  simp only [Option.some.injEq] at hdj
  rw [hdj] at hbt
  exact htopo j hj b hbt

theorem descend (tasks L : List Task)
    (hdict : ∀ t ∈ L, task_dict tasks t.id = some t)
    (htopo : TopoOk L) :
    ∀ (a b : String), Relation.TransGen (depEdge tasks) a b →
      ∀ (j : ℕ) (hj : j < L.length), (L.get ⟨j, hj⟩).id = a →
        ∃ (k : ℕ) (hk : k < L.length), k < j ∧ (L.get ⟨k, hk⟩).id = b := by
  intro a b htg
  induction htg with
  | single he => exact edge_step tasks L hdict htopo _ _ he
  | tail htg he ih =>
    intro j hj hja
    obtain ⟨k, hk, hkj, hkb⟩ := ih j hj hja
    obtain ⟨m, hm, hmk, hmc⟩ := edge_step tasks L hdict htopo _ _ he k hk hkb
    exact ⟨m, hm, by omega, hmc⟩

theorem no_cycle_of_topo (tasks L : List Task)
    (hdict : ∀ t ∈ L, task_dict tasks t.id = some t)
    (htopo : TopoOk L)
    (hcomp : ∀ t ∈ tasks, t.id ∈ L.map Task.id)
    (hcw : closed_world tasks) :
    ∀ c, ¬ Relation.TransGen (depEdge tasks) c c := by
  have hedge_mem : ∀ a b, depEdge tasks a b → b ∈ L.map Task.id := by
    intro a b ⟨t, hdt, hbt⟩
    obtain ⟨u, hu, huid⟩ := hcw t (task_dict_mem tasks a t hdt).1 b hbt
    rw [← huid]
    exact hcomp u hu
  intro c hc
  have hcmem : c ∈ L.map Task.id := by
    cases hc with
    | single he => exact hedge_mem c c he
    | tail _ he => exact hedge_mem _ c he
  obtain ⟨t0, ht0, ht0id⟩ := List.mem_map.mp hcmem
  obtain ⟨j0, hj0, hj0get⟩ := List.getElem_of_mem ht0
  have hstrong : ∀ (j : ℕ), ∀ (hj : j < L.length), (L.get ⟨j, hj⟩).id = c → False := by
    intro j
    induction j using Nat.strong_induction_on with
    | _ j ihj =>
      intro hj hjc
      obtain ⟨k, hk, hkj, hkc⟩ := descend tasks L hdict htopo c c hc j hj hjc
      exact ihj k hkj hk hkc
  apply hstrong j0 hj0
  rw [List.get_eq_getElem]
  rw [hj0get]
  exact ht0id

/-- The complete case analysis of the ordering phase for a closed-world
backlog: either it raises the circular-dependency error and the named id lies
on a dependency cycle, or it returns a topological order containing every
task id, and the dependency graph is acyclic. -/
theorem topo_order_spec (tasks : List Task) (hcw : closed_world tasks) :
    (∃ c, topo_order tasks = some (.error (.circular c)) ∧
      Relation.TransGen (depEdge tasks) c c) ∨
    (∃ L, topo_order tasks = some (.ok L) ∧ TopoOk L ∧
      (∀ t ∈ tasks, t.id ∈ L.map Task.id) ∧
      (∀ t ∈ L, task_dict tasks t.id = some t) ∧
      (∀ c, ¬ Relation.TransGen (depEdge tasks) c c)) := by
  cases hall : visitAll tasks (sort_fuel tasks) tasks ⟨[], [], []⟩ with
  | none =>
    exfalso
    refine visitAll_ne_none tasks tasks (sort_fuel tasks) ⟨[], [], []⟩
      (fun t ht => ht) (by simp) ?_ hall
    simp only [List.toFinset_nil, Finset.sdiff_empty]
    rw [show (idUniverse tasks).card
        = (tasks.map Task.id ++ tasks.flatMap Task.dependencies).dedup.length from
      List.card_toFinset _]
    unfold sort_fuel
    omega
  | some r =>
    cases r with
    | error e =>
      cases e with
      | circular c =>
        left
        refine ⟨c, ?_, visitAll_circular tasks tasks (sort_fuel tasks) ⟨[], [], []⟩ c rfl hall⟩
        unfold topo_order
        rw [hall]
        rfl
      | keyError x =>
        exact absurd hall (visitAll_no_key tasks hcw tasks (sort_fuel tasks)
          ⟨[], [], []⟩ (fun t ht => ht) x)
    | ok stf =>
      right
      obtain ⟨h1, h2, h3, h4⟩ := visitAll_ok tasks tasks (sort_fuel tasks) ⟨[], [], []⟩ stf hall
      have hinv0 : InvV tasks ⟨[], [], []⟩ := by
        refine ⟨by simp, by simp, by simp, topoOk_nil, by simp⟩
      obtain ⟨hiff, hnd, hdict, htopo, hdisj⟩ := h4 hinv0
      have hcomp : ∀ t ∈ tasks, t.id ∈ stf.sorted_tasks.map Task.id := by
        intro t ht
        exact (hiff t.id).mp (h3 t ht)
      refine ⟨stf.sorted_tasks, ?_, htopo, hcomp, hdict,
        no_cycle_of_topo tasks stf.sorted_tasks hdict htopo hcomp hcw⟩
      unfold topo_order
      rw [hall]
      rfl

/-! ### Claims C1 and C5 -/

/-- Claim C5: for an acyclic closed-world backlog the depth-first visitation
order (before the priority sort) is produced without error, contains every
task id, and places each task's dependencies strictly before it. -/
theorem c5_dependency_order (tasks : List Task)
    (hcw : ∀ t ∈ tasks, ∀ d ∈ t.dependencies, ∃ u ∈ tasks, u.id = d)
    (hacyc : ∀ c, ¬ Relation.TransGen (depEdge tasks) c c) :
    ∃ L, topo_order tasks = some (.ok L) ∧
      (∀ t ∈ tasks, t.id ∈ L.map Task.id) ∧
      ∀ (j : ℕ) (hj : j < L.length), ∀ d ∈ (L.get ⟨j, hj⟩).dependencies,
        ∃ (k : ℕ) (hk : k < L.length), k < j ∧ (L.get ⟨k, hk⟩).id = d := by
  rcases topo_order_spec tasks hcw with ⟨c, _, hcyc⟩ | ⟨L, hok, htopo, hcomp, _, _⟩
  · exact absurd hcyc (hacyc c)
  · exact ⟨L, hok, hcomp, htopo⟩

def wTaskA : Task :=
  { id := "A", title := "", description := "", required_skills := [],
    estimated_hours := 1, priority := .low, complexity := .simple,
    dependencies := ["B"] }

def wTaskB : Task :=
  { id := "B", title := "", description := "", required_skills := [],
    estimated_hours := 1, priority := .critical, complexity := .simple }

def wABTasks : List Task := [wTaskA, wTaskB]

/-- Witness for C5 on a two-task backlog where `A` depends on `B`. -/
theorem c5_dependency_order_witness :
    ∃ L, topo_order wABTasks = some (.ok L) ∧
      (∀ t ∈ wABTasks, t.id ∈ L.map Task.id) ∧
      ∀ (j : ℕ) (hj : j < L.length), ∀ d ∈ (L.get ⟨j, hj⟩).dependencies,
        ∃ (k : ℕ) (hk : k < L.length), k < j ∧ (L.get ⟨k, hk⟩).id = d :=
  c5_dependency_order wABTasks (by decide) (by
    rcases topo_order_spec wABTasks (by decide) with ⟨c, herr, _⟩ | ⟨L, _, _, _, _, hnc⟩
    · have hok : topo_order wABTasks = some (.ok [wTaskB, wTaskA]) := by decide
      rw [hok] at herr
      simp at herr
    · exact hnc)

/-- Claim C1: every closed-world backlog whose dependency graph has a cycle
makes `assign_tasks` fail with the circular-dependency error, and the id the
error names lies on a dependency cycle.  The error is raised by `visit` the
moment an id still on the recursion stack is encountered again (the first
check of `visit`). -/
theorem c1_cycle_detection (s : AgentState)
    (hcw : ∀ t ∈ s.tasks, ∀ d ∈ t.dependencies, ∃ u ∈ s.tasks, u.id = d)
    (hcyc : ∃ c0, Relation.TransGen (depEdge s.tasks) c0 c0) :
    ∃ c, (assign_tasks s).2 = some (.error (.circular c)) ∧
      Relation.TransGen (depEdge s.tasks) c c := by
  rcases topo_order_spec s.tasks hcw with ⟨c, herr, hcc⟩ | ⟨L, _, _, _, _, hnc⟩
  · refine ⟨c, ?_, hcc⟩
    have hsort : sort_tasks_by_priority_and_dependencies s.tasks
        = some (.error (.circular c)) := by
      unfold sort_tasks_by_priority_and_dependencies
      rw [herr]
      rfl
    unfold assign_tasks
    rw [hsort]
  · obtain ⟨c0, hc0⟩ := hcyc
    exact absurd hc0 (hnc c0)

/-- Witness for C1: the two-task cycle `X ↔ Y` fails naming an id on the
cycle. -/
theorem c1_cycle_detection_witness :
    ∃ c, (assign_tasks wCycState).2 = some (.error (.circular c)) ∧
      Relation.TransGen (depEdge wCycState.tasks) c c :=
  c1_cycle_detection wCycState (by decide) (by
    have hXY : depEdge wCycState.tasks "X" "Y" := ⟨wCycX, by decide, by decide⟩
    have hYX : depEdge wCycState.tasks "Y" "X" := ⟨wCycY, by decide, by decide⟩
    exact ⟨"X", Relation.TransGen.tail (Relation.TransGen.single hXY) hYX⟩)

end PMAssistant
